import Mathlib

/-
Verification of the edit/patch subsystem, ignore-pattern engine and session
router of the obsidian-connect-mcp plugin.

Document content is modelled as `List Char` (one JS string = one list of
characters).  JS `split("\n")` / `join("\n")` become `splitNl` / `joinNl`,
JS `number` thresholds and similarity scores become `ℚ`, and the floating
point literals 0.7 / 0.95 / 0.9 / 1.1 / ... are modelled by the
corresponding rationals.  Fallible operations (functions that `throw`)
return `Except (List Char) _` carrying the thrown message; handlers that
report a validation error without throwing return `Option _`.
-/

namespace ObsidianMcp

/-- Whitespace test modelling the JS `\s` character class (and the
characters stripped by `String.prototype.trim`) restricted to its ASCII
members; the sources only ever build patterns and documents from ASCII. -/
def isWs (c : Char) : Bool :=
  c == ' ' || c == '\t' || c == '\n' || c == '\r' || c == '\x0b' || c == '\x0c'

/-- Model of JS `trimStart`. -/
def trimStartWs (l : List Char) : List Char := l.dropWhile isWs

/-- Model of JS `trimEnd`. -/
def trimEndWs (l : List Char) : List Char := (l.reverse.dropWhile isWs).reverse

/-- Model of JS `trim`. -/
def trimWs (l : List Char) : List Char := trimEndWs (trimStartWs l)

/-- Model of JS `content.split("\n")`: splitting on every newline, keeping
empty segments, so that the empty string splits to `[""]`. -/
def splitNl : List Char → List (List Char)
  | [] => [[]]
  | c :: rest =>
    if c = '\n' then [] :: splitNl rest
    else
      match splitNl rest with
      | l :: ls => (c :: l) :: ls
      | [] => [[c]]

/-- Model of JS `lines.join("\n")`. -/
def joinNl : List (List Char) → List Char
  | [] => []
  | [l] => l
  | l :: l2 :: ls => l ++ '\n' :: joinNl (l2 :: ls)

/-- Index of the first occurrence of `pat` in a list (model of JS
`indexOf` for a non-empty pattern, and of `indexOf` of the empty pattern
at position 0). `none` models the JS result `-1`. -/
def firstPrefixIdx (pat : List Char) : List Char → Option Nat
  | [] => if pat = [] then some 0 else none
  | c :: rest =>
    if pat.isPrefixOf (c :: rest) then some 0
    else (firstPrefixIdx pat rest).map (· + 1)

/-- Model of JS `l.indexOf(pat, start)` for a non-empty `pat` and
`start ≤ l.length`. -/
def idxOfFrom (l pat : List Char) (start : Nat) : Option Nat :=
  (firstPrefixIdx pat (l.drop start)).map (· + start)

/-! ### utils/fuzzy-match.ts -/

/-- One row update of the Wagner–Fischer matrix of
`levenshteinDistance` (the inner `for j` loop of the source): given the
remaining characters of `a`, the remainder of the previous row, the
diagonal entry `matrix[i-1][j-1]` and the entry to the left
`matrix[i][j-1]`, produce the entries `matrix[i][j]` for the remaining
columns. -/
def levRowAux (bi : Char) : List Char → List Nat → Nat → Nat → List Nat
  | [], _, _, _ => []
  | aj :: arest, prest, diag, left =>
    let pj := prest.headD 0
    let cost := if aj = bi then 0 else 1
    let cj := min (pj + 1) (min (left + 1) (diag + cost))
    cj :: levRowAux bi arest prest.tail pj cj

/-- The outer `for i` loop of `levenshteinDistance`: fold the row update
over the characters of `b`, starting each row `i` with the first-column
entry `matrix[i][0] = i`. Returns the final row. -/
def levRows (a : List Char) : List Char → List Nat → Nat → List Nat
  | [], row, _ => row
  | bi :: brest, row, i =>
    levRows a brest (i :: levRowAux bi a row.tail (row.headD 0) i) (i + 1)

/-- Model of `levenshteinDistance(a, b)` from utils/fuzzy-match.ts:
early return for an empty argument, otherwise the last entry
`matrix[b.length][a.length]` of the Wagner–Fischer matrix whose first row
is `[0, 1, ..., a.length]`. -/
def levenshteinDistance (a b : List Char) : Nat :=
  if a = [] then b.length
  else if b = [] then a.length
  else (levRows a b (List.range (a.length + 1)) 1).getLastD 0

/-- Model of `similarityRatio(a, b)`: `1 - distance / maxLength`, and 1
when both strings are empty. -/
def similarityRatio (a b : List Char) : ℚ :=
  let maxLength := max a.length b.length
  if maxLength = 0 then 1
  else 1 - (levenshteinDistance a b : ℚ) / (maxLength : ℚ)

/-- The result record of `findBestMatch`; `stop` models the source field
named `end` (a Lean keyword). -/
structure MatchCandidate where
  matched : List Char
  start : Nat
  stop : Nat
  similarity : ℚ
deriving DecidableEq

/-- Model of the JS expression `text.replace(/\s+/g, " ")`: every maximal
run of whitespace becomes one space. The flag records whether the
previous character was part of a whitespace run. -/
def collapseWsAux : Bool → List Char → List Char
  | _, [] => []
  | prevWs, c :: rest =>
    if isWs c then
      if prevWs then collapseWsAux true rest
      else ' ' :: collapseWsAux true rest
    else c :: collapseWsAux false rest

/-- Model of `normalizeWhitespace(text)`: collapse whitespace runs, then
trim. -/
def normalizeWhitespace (l : List Char) : List Char :=
  trimWs (collapseWsAux false l)

/-- The five window sizes tried by `findBestMatch` around the normalized
search length: exact, ±10%, ±20% (JS `Math.floor` of a float product,
modelled as the rational floor). -/
def windowSizes (searchLength : Nat) : List Nat :=
  [searchLength, 9 * searchLength / 10, 11 * searchLength / 10,
    8 * searchLength / 10, 12 * searchLength / 10]

/-- The inner sliding-window loop of `findBestMatch` for one window size:
`k` counts the remaining iterations (the source iterates
`i = 0 .. content.length - windowSize`), `i` is the current window start,
`best` the best candidate so far.  A new best is recorded exactly when the
window's similarity reaches the threshold and beats the current best; the
loop breaks immediately after recording a candidate of similarity
≥ 0.95. -/
def slideLoop (content ns : List Char) (t : ℚ) (wsize : Nat) :
    Nat → Nat → Option MatchCandidate → Option MatchCandidate
  | 0, _, best => best
  | k + 1, i, best =>
    let w := (content.drop i).take wsize
    let sim := similarityRatio ns (normalizeWhitespace w)
    let improved := decide (t ≤ sim) &&
      (match best with
       | none => true
       | some b => decide (b.similarity < sim))
    if improved then
      if (19 : ℚ) / 20 ≤ sim then some ⟨w, i, i + wsize, sim⟩
      else slideLoop content ns t wsize k (i + 1) (some ⟨w, i, i + wsize, sim⟩)
    else slideLoop content ns t wsize k (i + 1) best

/-- The outer loop of `findBestMatch` over the window sizes: sizes that
are zero or larger than the content are skipped (`continue`), and the
loop breaks once the best candidate has similarity ≥ 0.95. -/
def tryWindows (content ns : List Char) (t : ℚ) :
    List Nat → Option MatchCandidate → Option MatchCandidate
  | [], best => best
  | w :: ws, best =>
    if w = 0 ∨ content.length < w then tryWindows content ns t ws best
    else
      let best2 := slideLoop content ns t w (content.length - w + 1) 0 best
      let stop := match best2 with
        | some b => decide ((19 : ℚ) / 20 ≤ b.similarity)
        | none => false
      if stop then best2 else tryWindows content ns t ws best2

/-- Model of `findBestMatch(content, searchText, threshold)` from
utils/fuzzy-match.ts: exact substring search first (similarity 1), then
the sliding-window approximate search over the window sizes derived from
the normalized search text. -/
def findBestMatch (content searchText : List Char) (threshold : ℚ) :
    Option MatchCandidate :=
  match firstPrefixIdx searchText content with
  | some exactIndex =>
    some ⟨searchText, exactIndex, exactIndex + searchText.length, 1⟩
  | none =>
    let ns := normalizeWhitespace searchText
    tryWindows content ns threshold (windowSizes ns.length) none

/-! ### tools/edit-tools.ts -/

/-- The three patch operations of `vault_patch`. -/
inductive PatchOp
  | append
  | prepend
  | replace
deriving DecidableEq

/-- Whether a list starts with a whitespace character. -/
def headWs : List Char → Bool
  | c :: _ => isWs c
  | [] => false

/-- Model of `line.match(/^(#{1,6})\s+(.+)$/)` from `patchHeading`: on a
newline-free line the regex matches exactly when the line starts with 1–6
`#` characters followed by a whitespace character and at least one
further character; the captured text (group 2 of the match) trimmed, as
the source computes it, equals the trim of everything after the `#`
run. Returns the heading level and that trimmed text. -/
def parseHeading (line : List Char) : Option (Nat × List Char) :=
  let k := (line.takeWhile (fun c => c == '#')).length
  let rest := line.drop k
  if decide (1 ≤ k) && decide (k ≤ 6) && headWs rest && decide (2 ≤ rest.length)
  then some (k, trimWs rest)
  else none

/-- Model of the weaker regex `/^(#{1,6})\s+/` used when scanning for the
end of a heading section: level of the `#` run when the line starts with
1–6 `#` characters followed by whitespace. -/
def headingPrefixLevel (line : List Char) : Option Nat :=
  let k := (line.takeWhile (fun c => c == '#')).length
  let rest := line.drop k
  if decide (1 ≤ k) && decide (k ≤ 6) && headWs rest then some k else none

/-- The end-of-section condition of `patchHeading`: the line matches
`/^(#{1,6})\s+/` with a level at most `level`. -/
def isTerminator (level : Nat) (line : List Char) : Bool :=
  match headingPrefixLevel line with
  | some k => decide (k ≤ level)
  | none => false

/-- Model of JS `headingPath.split("::")`. -/
def splitSegs : List Char → List (List Char)
  | ':' :: ':' :: rest => [] :: splitSegs rest
  | c :: rest =>
    match splitSegs rest with
    | s :: ss => (c :: s) :: ss
    | [] => [[c]]
  | [] => [[]]

/-- The heading-resolution loop of `patchHeading` (lines 321–354 of
edit-tools.ts): scan the lines top to bottom; when the current line is a
heading whose trimmed text equals the next unmatched path segment and
whose level strictly exceeds the previously matched level, consume the
segment; when the last segment is consumed return the line index and the
level of that heading. -/
def findHeadingPos : List (List Char) → Nat → List (List Char) → Nat → Option (Nat × Nat)
  | _, _, [], _ => none
  | segs, cur, line :: rest, pos =>
    match parseHeading line, segs with
    | some (level, text), s :: moreSegs =>
      if text == s && decide (cur < level) then
        match moreSegs with
        | [] => some (pos, level)
        | _ :: _ => findHeadingPos moreSegs level rest (pos + 1)
      else findHeadingPos segs cur rest (pos + 1)
    | _, _ => findHeadingPos segs cur rest (pos + 1)

/-- The end-of-section scan of `patchHeading` (lines 339–349): starting
at absolute position `pos`, return the index of the first line matching
`/^(#{1,6})\s+/` at level ≤ `level`, or the end of the document. -/
def findSectionEnd (level : Nat) : List (List Char) → Nat → Nat
  | [], pos => pos
  | line :: rest, pos =>
    if isTerminator level line then pos
    else findSectionEnd level rest (pos + 1)

/-- Model of `patchHeading(content, headingPath, operation, patchContent)`:
resolve the heading path, compute the section end, splice the patch
content into the line array and re-join.  The error value carries the
thrown message `Heading not found: <headingPath>`. -/
def patchHeading (content headingPath : List Char) (op : PatchOp)
    (patchContent : List Char) : Except (List Char) (List Char) :=
  let lines := splitNl content
  match findHeadingPos (splitSegs headingPath) 0 lines 0 with
  | none => Except.error (("Heading not found: ").toList ++ headingPath)
  | some (ts, level) =>
    let te := findSectionEnd level (lines.drop (ts + 1)) (ts + 1)
    let newLines :=
      match op with
      | .replace => lines.take (ts + 1) ++ [patchContent] ++ lines.drop te
      | .prepend => lines.take (ts + 1) ++ [patchContent] ++ lines.drop (ts + 1)
      | .append => lines.take te ++ [patchContent] ++ lines.drop te
    Except.ok (joinNl newLines)

/-- The heading-section reader induced by the engine's own resolution
(the span `lines.slice(targetStart + 1, targetEnd)` of `patchHeading`):
the body of text under the heading denoted by `headingPath`, re-joined
with newlines, or `none` when the path does not resolve. -/
def headingBody (content headingPath : List Char) : Option (List Char) :=
  let lines := splitNl content
  match findHeadingPos (splitSegs headingPath) 0 lines 0 with
  | none => none
  | some (ts, level) =>
    let te := findSectionEnd level (lines.drop (ts + 1)) (ts + 1)
    some (joinNl ((lines.drop (ts + 1)).take (te - (ts + 1))))

/-- The first index of a line satisfying `p` (the `for`-with-`break`
scans of `patchBlock` and `patchFrontmatter`). -/
def findLineIdx (p : List Char → Bool) : List (List Char) → Option Nat
  | [] => none
  | l :: rest => if p l then some 0 else (findLineIdx p rest).map (· + 1)

/-- Model of `patchBlock(content, blockId, operation, patchContent)`:
find the first line containing the literal token `^<blockId>`, decompose
it around the marker and rebuild it per the operation. -/
def patchBlock (content blockId : List Char) (op : PatchOp)
    (patchContent : List Char) : Except (List Char) (List Char) :=
  let marker := '^' :: blockId
  let lines := splitNl content
  match findLineIdx (fun l => (firstPrefixIdx marker l).isSome) lines with
  | none => Except.error (("Block not found: ").toList ++ blockId)
  | some i =>
    let originalLine := (lines[i]?).getD []
    let markerIndex := (firstPrefixIdx marker originalLine).getD 0
    let textBefore := trimEndWs (originalLine.take markerIndex)
    let markerRest := originalLine.drop markerIndex
    let newLine :=
      match op with
      | .replace => patchContent ++ (" ").toList ++ markerRest
      | .prepend => patchContent ++ (" ").toList ++ textBefore ++ (" ").toList ++ markerRest
      | .append => textBefore ++ (" ").toList ++ patchContent ++ (" ").toList ++ markerRest
    Except.ok (joinNl (lines.set i newLine))

/-- Model of the JS test `new RegExp(`^field:\s*`).test(line)` for a
field name containing no regex metacharacters: since `\s*` matches the
empty string the test holds exactly when the line starts with
`field` followed by `:`. -/
def fieldKeyMatch (field line : List Char) : Bool :=
  (field ++ [':']).isPrefixOf line

/-- Model of `line.replace(fieldPattern, "")` on a line matching
`^field:\s*`: remove the field name, the colon and the following
whitespace run (the greedy `\s*`). -/
def stripFieldKey (field line : List Char) : List Char :=
  (line.drop (field.length + 1)).dropWhile isWs

/-- Model of `patchFrontmatter(content, field, operation, patchContent)`:
if the content does not start with `---`, prepend a fresh frontmatter
block; otherwise locate the closing `---` from index 3, split out the
frontmatter body (`slice(4, endIndex)`) and the rest
(`slice(endIndex + 3)`), update or append the field line and re-assemble
as `---\n<lines.join("\n")>---<rest>`. -/
def patchFrontmatter (content field : List Char) (op : PatchOp)
    (patchContent : List Char) : Except (List Char) (List Char) :=
  if ("---").toList.isPrefixOf content then
    match idxOfFrom content (("---").toList) 3 with
    | none => Except.error (("Invalid frontmatter: missing closing ---").toList)
    | some endIndex =>
      let fm := (content.drop 4).take (endIndex - 4)
      let rest := content.drop (endIndex + 3)
      let lines := splitNl fm
      let newLines :=
        match findLineIdx (fieldKeyMatch field) lines with
        | none => lines ++ [field ++ (": ").toList ++ patchContent]
        | some i =>
          let currentLine := (lines[i]?).getD []
          let currentValue := stripFieldKey field currentLine
          let newLine :=
            match op with
            | .replace => field ++ (": ").toList ++ patchContent
            | .prepend => field ++ (": ").toList ++ patchContent ++ currentValue
            | .append => field ++ (": ").toList ++ currentValue ++ patchContent
          lines.set i newLine
      Except.ok (("---\n").toList ++ joinNl newLines ++ ("---").toList ++ rest)
  else
    Except.ok (("---\n").toList ++ field ++ (": ").toList ++ patchContent
      ++ ("\n---\n\n").toList ++ content)

/-- The target selector of the `vault_patch` tool. -/
inductive TargetKind
  | heading
  | block
  | frontmatter
deriving DecidableEq

/-- The dispatch of the `vault_patch` handler over the target type
(lines 253–268 of edit-tools.ts), acting on the document content that
the handler read from the vault. -/
def vaultPatch (content : List Char) (targetType : TargetKind)
    (target : List Char) (op : PatchOp) (patchContent : List Char) :
    Except (List Char) (List Char) :=
  match targetType with
  | .heading => patchHeading content target op patchContent
  | .block => patchBlock content target op patchContent
  | .frontmatter => patchFrontmatter content target op patchContent

/-- The document content after a `vault_patch` call: on success the
handler writes the new content with `vault.modify`; when a patch
function throws, the handler catches the error and returns an error
payload without ever calling `vault.modify`, so the document keeps its
previous content. -/
def vaultPatchApply (content : List Char) (targetType : TargetKind)
    (target : List Char) (op : PatchOp) (patchContent : List Char) : List Char :=
  match vaultPatch content targetType target op patchContent with
  | .ok newContent => newContent
  | .error _ => content

/-- The three modes of the `vault_edit_line` tool. -/
inductive LineMode
  | before
  | after
  | replace
deriving DecidableEq

/-- Model of the `vault_edit_line` handler body (lines 143–175 of
edit-tools.ts) acting on the document content: split into lines, reject
a line number outside `1 .. lineCount + 1` (`none` models the
validation-error payload, in which case `vault.modify` is never called),
otherwise splice the new lines in at `lineNumber - 1` per the mode and
re-join. -/
def editLine (content : List Char) (lineNumber : Nat)
    (newContent : List Char) (mode : LineMode) : Option (List Char) :=
  let lines := splitNl content
  if lineNumber < 1 ∨ lines.length + 1 < lineNumber then none
  else
    let index := lineNumber - 1
    let newLines := splitNl newContent
    let result :=
      match mode with
      | .before => lines.take index ++ newLines ++ lines.drop index
      | .after => lines.take (index + 1) ++ newLines ++ lines.drop (index + 1)
      | .replace => lines.take index ++ newLines ++ lines.drop (index + 1)
    some (joinNl result)

/-! ### mcp-ignore.ts -/

/-- The state of `McpIgnoreManager`: the parsed patterns and the enabled
flag. -/
structure IgnoreState where
  patterns : List (List Char)
  enabled : Bool
deriving DecidableEq

/-- Model of `McpIgnoreManager.parsePatterns`: split on newlines, trim
each line, drop empty lines and lines starting with `#`. -/
def parsePatterns (content : List Char) : List (List Char) :=
  ((splitNl content).map trimWs).filter
    (fun line => !line.isEmpty && !(['#'].isPrefixOf line))

/-- Model of `McpIgnoreManager.load`: `ruleFile` is the content of the
`.mcpignore` file, or `none` when the file does not exist (or reading it
threw). The engine is enabled exactly when at least one pattern
survives parsing. -/
def loadIgnore (ruleFile : Option (List Char)) : IgnoreState :=
  match ruleFile with
  | none => ⟨[], false⟩
  | some content =>
    let ps := parsePatterns content
    ⟨ps, decide (0 < ps.length)⟩

/-- Model of `McpIgnoreManager.isExcluded`. The gitignore-pattern
matcher `McpIgnoreManager.matchesPattern` (which compiles each pattern
to a JS regex) is passed as a function parameter `m`: no claim under
verification depends on its behaviour, because `isExcluded` decides the
disabled case and the `.mcpignore` case before consulting any
pattern. -/
def isExcluded (m : List Char → List Char → Bool) (st : IgnoreState)
    (path : List Char) : Bool :=
  if !st.enabled then false
  else if path = (".mcpignore").toList then true
  else st.patterns.any (fun pat => m path pat)

/-! ### Session router (handleMcpRequest, quoted in specs/prompts.md) -/

/-- Outcome of one `handleMcpRequest` dispatch: route to an existing
transport, reject with the HTTP 400 "Session expired or invalid. Please
re-initialize." error, or create a fresh session. -/
inductive RouterOutcome
  | existing (sid : List Char)
  | rejected
  | created (sid : List Char)
deriving DecidableEq

/-- Model of the session dispatch of `handleMcpRequest`: the active
session table is the list of registered session identifiers,
`sessionId` is the `mcp-session-id` header (`none` when absent) and
`newId` is the identifier `randomUUID()` would produce.  JS truthiness
makes an empty-string header behave like an absent one (`sessionId &&
...` is false for `""`), which the model reproduces. -/
def handleMcpRequest (transports : List (List Char))
    (sessionId : Option (List Char)) (newId : List Char) :
    RouterOutcome × List (List Char) :=
  match sessionId with
  | some sid =>
    if sid = [] then (RouterOutcome.created newId, newId :: transports)
    else if sid ∈ transports then (RouterOutcome.existing sid, transports)
    else (RouterOutcome.rejected, transports)
  | none => (RouterOutcome.created newId, newId :: transports)

/-! ### Lemmas about `splitNl` and `joinNl` -/

theorem splitNl_ne_nil (l : List Char) : splitNl l ≠ [] := by
  cases l with
  | nil => simp [splitNl]
  | cons c rest =>
    simp only [splitNl]
    split
    · simp
    · split <;> simp

theorem splitNl_cons_nl (rest : List Char) :
    splitNl ('\n' :: rest) = [] :: splitNl rest := by
  simp [splitNl]

theorem splitNl_cons_other (c : Char) (rest : List Char) (hc : c ≠ '\n')
    (m : List Char) (ms : List (List Char)) (ha : splitNl rest = m :: ms) :
    splitNl (c :: rest) = (c :: m) :: ms := by
  simp [splitNl, hc, ha]

theorem splitNl_append_cons (a b : List Char) :
    splitNl (a ++ '\n' :: b) = splitNl a ++ splitNl b := by
  induction a with
  | nil => simp [splitNl]
  | cons c a ih =>
    by_cases hc : c = '\n'
    · subst hc
      rw [List.cons_append, splitNl_cons_nl, splitNl_cons_nl, ih,
        List.cons_append]
    · rcases ha : splitNl a with _ | ⟨m, ms⟩
      · exact absurd ha (splitNl_ne_nil a)
      · have h2 : splitNl (a ++ '\n' :: b) = m :: (ms ++ splitNl b) := by
          rw [ih, ha, List.cons_append]
        rw [List.cons_append, splitNl_cons_other c _ hc _ _ h2,
          splitNl_cons_other c a hc m ms ha, List.cons_append]

theorem splitNl_eq_single (l : List Char) (h : '\n' ∉ l) : splitNl l = [l] := by
  induction l with
  | nil => rfl
  | cons c rest ih =>
    have hc : c ≠ '\n' := fun hc => h (hc ▸ List.mem_cons_self c rest)
    have hrest : '\n' ∉ rest := fun hm => h (List.mem_cons_of_mem c hm)
    exact splitNl_cons_other c rest hc rest [] (ih hrest)

theorem not_nl_mem_of_mem_splitNl (l : List Char) (x : List Char)
    (hx : x ∈ splitNl l) : '\n' ∉ x := by
  induction l generalizing x with
  | nil =>
    simp only [splitNl, List.mem_singleton] at hx
    subst hx
    simp
  | cons c rest ih =>
    by_cases hc : c = '\n'
    · subst hc
      rw [splitNl_cons_nl, List.mem_cons] at hx
      rcases hx with hx | hx
      · subst hx
        simp
      · exact ih x hx
    · rcases ha : splitNl rest with _ | ⟨m, ms⟩
      · exact absurd ha (splitNl_ne_nil rest)
      · rw [splitNl_cons_other c rest hc m ms ha, List.mem_cons] at hx
        rcases hx with hx | hx
        · subst hx
          intro hmem
          rcases List.mem_cons.mp hmem with h1 | h1
          · exact hc h1.symm
          · exact ih m (ha ▸ List.mem_cons_self m ms) h1
        · exact ih x (ha ▸ List.mem_cons_of_mem m hx)

theorem joinNl_cons (a : List Char) (L : List (List Char)) (h : L ≠ []) :
    joinNl (a :: L) = a ++ '\n' :: joinNl L := by
  cases L with
  | nil => exact absurd rfl h
  | cons b M => rfl

theorem joinNl_splitNl (l : List Char) : joinNl (splitNl l) = l := by
  induction l with
  | nil => rfl
  | cons c rest ih =>
    by_cases hc : c = '\n'
    · subst hc
      rw [splitNl_cons_nl, joinNl_cons _ _ (splitNl_ne_nil rest), ih]
      rfl
    · rcases ha : splitNl rest with _ | ⟨m, ms⟩
      · exact absurd ha (splitNl_ne_nil rest)
      · rw [splitNl_cons_other c rest hc m ms ha]
        rw [ha] at ih
        cases ms with
        | nil =>
          simp only [joinNl] at ih ⊢
          rw [ih]
        | cons m2 ms2 =>
          rw [joinNl_cons m (m2 :: ms2) (by simp)] at ih
          rw [joinNl_cons (c :: m) (m2 :: ms2) (by simp), List.cons_append, ih]

theorem splitNl_joinNl_flat (L : List (List Char)) (h : L ≠ []) :
    splitNl (joinNl L) = L.flatMap splitNl := by
  induction L with
  | nil => exact absurd rfl h
  | cons a M ih =>
    cases M with
    | nil => simp [joinNl, List.flatMap]
    | cons b M2 =>
      rw [joinNl_cons _ _ (by simp), splitNl_append_cons, ih (by simp)]
      simp [List.flatMap_cons]

theorem flatMap_splitNl_eq_self (M : List (List Char))
    (h : ∀ x ∈ M, '\n' ∉ x) : M.flatMap splitNl = M := by
  induction M with
  | nil => rfl
  | cons a M2 ih =>
    rw [List.flatMap_cons, splitNl_eq_single a (h a (List.mem_cons_self a M2)),
      ih (fun x hx => h x (List.mem_cons_of_mem a hx))]
    rfl

/-! ### Lemmas about heading resolution -/

theorem fhpStep_noParse (line : List Char) (h : parseHeading line = none)
    (segs : List (List Char)) (cur : Nat) (rest : List (List Char)) (pos : Nat) :
    findHeadingPos segs cur (line :: rest) pos = findHeadingPos segs cur rest (pos + 1) := by
  cases segs <;> simp [findHeadingPos, h]

theorem fhpStep_nilSegs (line : List Char) (cur : Nat)
    (rest : List (List Char)) (pos : Nat) :
    findHeadingPos [] cur (line :: rest) pos = findHeadingPos [] cur rest (pos + 1) := by
  rcases hph : parseHeading line with _ | ⟨level, text⟩ <;> simp [findHeadingPos, hph]

theorem fhpStep_noMatch (line : List Char) (level : Nat) (text : List Char)
    (h : parseHeading line = some (level, text)) (s : List Char)
    (ms : List (List Char)) (cur : Nat) (hc : (text == s && decide (cur < level)) = false)
    (rest : List (List Char)) (pos : Nat) :
    findHeadingPos (s :: ms) cur (line :: rest) pos
      = findHeadingPos (s :: ms) cur rest (pos + 1) := by
  simp [findHeadingPos, h, hc]

theorem fhpStep_last (line : List Char) (level : Nat) (text : List Char)
    (h : parseHeading line = some (level, text)) (s : List Char) (cur : Nat)
    (hc : (text == s && decide (cur < level)) = true)
    (rest : List (List Char)) (pos : Nat) :
    findHeadingPos [s] cur (line :: rest) pos = some (pos, level) := by
  simp [findHeadingPos, h, hc]

theorem fhpStep_next (line : List Char) (level : Nat) (text : List Char)
    (h : parseHeading line = some (level, text)) (s s2 : List Char)
    (ms : List (List Char)) (cur : Nat)
    (hc : (text == s && decide (cur < level)) = true)
    (rest : List (List Char)) (pos : Nat) :
    findHeadingPos (s :: s2 :: ms) cur (line :: rest) pos
      = findHeadingPos (s2 :: ms) level rest (pos + 1) := by
  simp [findHeadingPos, h, hc]

theorem findHeadingPos_bounds (segs : List (List Char)) (cur : Nat)
    (lines : List (List Char)) (pos p lvl : Nat)
    (h : findHeadingPos segs cur lines pos = some (p, lvl)) :
    pos ≤ p ∧ p - pos < lines.length := by
  induction lines generalizing segs cur pos with
  | nil => simp [findHeadingPos] at h
  | cons line rest ih =>
    have step : ∀ segs2 cur2,
        findHeadingPos segs2 cur2 rest (pos + 1) = some (p, lvl) →
        pos ≤ p ∧ p - pos < (line :: rest).length := by
      intro segs2 cur2 hh
      obtain ⟨h1, h2⟩ := ih segs2 cur2 (pos + 1) hh
      simp only [List.length_cons]
      omega
    rcases hph : parseHeading line with _ | ⟨level, text⟩
    · rw [fhpStep_noParse line hph] at h
      exact step segs cur h
    · cases segs with
      | nil =>
        rw [fhpStep_nilSegs] at h
        exact step [] cur h
      | cons s moreSegs =>
        by_cases hcond : (text == s && decide (cur < level)) = true
        · cases moreSegs with
          | nil =>
            rw [fhpStep_last line level text hph s cur hcond] at h
            simp only [Option.some_inj, Prod.mk.injEq] at h
            simp only [List.length_cons]
            omega
          | cons s2 ss2 =>
            rw [fhpStep_next line level text hph s s2 ss2 cur hcond] at h
            exact step (s2 :: ss2) level h
        · rw [fhpStep_noMatch line level text hph s moreSegs cur
            (Bool.not_eq_true _ ▸ hcond)] at h
          exact step (s :: moreSegs) cur h

theorem findHeadingPos_take_stable (segs : List (List Char)) (cur : Nat)
    (L1 L2 L2' : List (List Char)) (pos p lvl : Nat)
    (h : findHeadingPos segs cur (L1 ++ L2) pos = some (p, lvl))
    (hp : p < pos + L1.length) :
    findHeadingPos segs cur (L1 ++ L2') pos = some (p, lvl) := by
  induction L1 generalizing segs cur pos with
  | nil =>
    obtain ⟨h1, _⟩ := findHeadingPos_bounds segs cur ([] ++ L2) pos p lvl h
    simp only [List.length_nil] at hp
    omega
  | cons line L1t ih =>
    have hp2 : p < (pos + 1) + L1t.length := by
      simp only [List.length_cons] at hp
      omega
    rw [List.cons_append] at h ⊢
    rcases hph : parseHeading line with _ | ⟨level, text⟩
    · rw [fhpStep_noParse line hph] at h ⊢
      exact ih segs cur (pos + 1) h hp2
    · cases segs with
      | nil =>
        rw [fhpStep_nilSegs] at h ⊢
        exact ih [] cur (pos + 1) h hp2
      | cons s moreSegs =>
        by_cases hcond : (text == s && decide (cur < level)) = true
        · cases moreSegs with
          | nil =>
            rw [fhpStep_last line level text hph s cur hcond] at h ⊢
            exact h
          | cons s2 ss2 =>
            rw [fhpStep_next line level text hph s s2 ss2 cur hcond] at h ⊢
            exact ih (s2 :: ss2) level (pos + 1) h hp2
        · rw [fhpStep_noMatch line level text hph s moreSegs cur
            (Bool.not_eq_true _ ▸ hcond)] at h ⊢
          exact ih (s :: moreSegs) cur (pos + 1) h hp2

theorem findHeadingPos_one (s : List Char) (cur : Nat)
    (lines : List (List Char)) (pos p lvl : Nat)
    (h : findHeadingPos [s] cur lines pos = some (p, lvl)) :
    pos ≤ p ∧ ∃ ln, lines[p - pos]? = some ln ∧
      parseHeading ln = some (lvl, s) ∧ cur < lvl := by
  induction lines generalizing cur pos with
  | nil => simp [findHeadingPos] at h
  | cons line rest ih =>
    have lift : ∀ cur2, findHeadingPos [s] cur2 rest (pos + 1) = some (p, lvl) →
        pos ≤ p ∧ ∃ ln, (line :: rest)[p - pos]? = some ln ∧
          parseHeading ln = some (lvl, s) ∧ cur2 < lvl := by
      intro cur2 hh
      obtain ⟨h1, ln, h2, h3, h4⟩ := ih cur2 (pos + 1) hh
      refine ⟨by omega, ln, ?_, h3, h4⟩
      have heq : p - pos = (p - (pos + 1)) + 1 := by omega
      rw [heq, List.getElem?_cons_succ]
      exact h2
    rcases hph : parseHeading line with _ | ⟨level, text⟩
    · rw [fhpStep_noParse line hph] at h
      exact lift cur h
    · by_cases hcond : (text == s && decide (cur < level)) = true
      · rw [fhpStep_last line level text hph s cur hcond] at h
        simp only [Option.some_inj, Prod.mk.injEq] at h
        obtain ⟨hp1, hl1⟩ := h
        subst hp1
        subst hl1
        rw [Bool.and_eq_true, beq_iff_eq, decide_eq_true_eq] at hcond
        refine ⟨le_refl pos, line, ?_, ?_, hcond.2⟩
        · simp
        · rw [hph, hcond.1]
      · rw [fhpStep_noMatch line level text hph s [] cur
          (Bool.not_eq_true _ ▸ hcond)] at h
        exact lift cur h

theorem findHeadingPos_pair (s1 s2 : List Char) (cur : Nat)
    (lines : List (List Char)) (pos p lvl : Nat)
    (h : findHeadingPos [s1, s2] cur lines pos = some (p, lvl)) :
    ∃ i l1 ln1 ln2, pos ≤ i ∧ i < p ∧
      lines[i - pos]? = some ln1 ∧ parseHeading ln1 = some (l1, s1) ∧
      cur < l1 ∧ l1 < lvl ∧
      lines[p - pos]? = some ln2 ∧ parseHeading ln2 = some (lvl, s2) := by
  induction lines generalizing cur pos with
  | nil => simp [findHeadingPos] at h
  | cons line rest ih =>
    have lift : ∀ cur2, findHeadingPos [s1, s2] cur2 rest (pos + 1) = some (p, lvl) →
        ∃ i l1 ln1 ln2, pos ≤ i ∧ i < p ∧
          (line :: rest)[i - pos]? = some ln1 ∧ parseHeading ln1 = some (l1, s1) ∧
          cur2 < l1 ∧ l1 < lvl ∧
          (line :: rest)[p - pos]? = some ln2 ∧ parseHeading ln2 = some (lvl, s2) := by
      intro cur2 hh
      obtain ⟨i, l1, ln1, ln2, hi1, hi2, hg1, hp1, hc1, hl1, hg2, hp2⟩ :=
        ih cur2 (pos + 1) hh
      refine ⟨i, l1, ln1, ln2, by omega, hi2, ?_, hp1, hc1, hl1, ?_, hp2⟩
      · have heq : i - pos = (i - (pos + 1)) + 1 := by omega
        rw [heq, List.getElem?_cons_succ]
        exact hg1
      · have heq : p - pos = (p - (pos + 1)) + 1 := by omega
        rw [heq, List.getElem?_cons_succ]
        exact hg2
    rcases hph : parseHeading line with _ | ⟨level, text⟩
    · rw [fhpStep_noParse line hph] at h
      exact lift cur h
    · by_cases hcond : (text == s1 && decide (cur < level)) = true
      · rw [fhpStep_next line level text hph s1 s2 [] cur hcond] at h
        rw [Bool.and_eq_true, beq_iff_eq, decide_eq_true_eq] at hcond
        obtain ⟨hpos1, ln2, hg2, hp2, hlt⟩ :=
          findHeadingPos_one s2 level rest (pos + 1) p lvl h
        refine ⟨pos, level, line, ln2, le_refl pos, by omega, ?_, ?_,
          hcond.2, hlt, ?_, hp2⟩
        · simp
        · rw [hph, hcond.1]
        · have heq : p - pos = (p - (pos + 1)) + 1 := by omega
          rw [heq, List.getElem?_cons_succ]
          exact hg2
      · rw [fhpStep_noMatch line level text hph s1 [s2] cur
          (Bool.not_eq_true _ ▸ hcond)] at h
        exact lift cur h

/-! ### Lemmas about the end-of-section scan -/

theorem findSectionEnd_bounds (lvl : Nat) (L : List (List Char)) (pos : Nat) :
    pos ≤ findSectionEnd lvl L pos ∧ findSectionEnd lvl L pos ≤ pos + L.length := by
  induction L generalizing pos with
  | nil => simp [findSectionEnd]
  | cons line rest ih =>
    simp only [findSectionEnd]
    by_cases ht : isTerminator lvl line = true
    · rw [if_pos ht]
      simp only [List.length_cons]
      omega
    · rw [if_neg ht]
      obtain ⟨h1, h2⟩ := ih (pos + 1)
      simp only [List.length_cons]
      omega

theorem findSectionEnd_skip (lvl : Nat) (A B : List (List Char)) (pos : Nat)
    (hA : ∀ l ∈ A, isTerminator lvl l = false) :
    findSectionEnd lvl (A ++ B) pos = findSectionEnd lvl B (pos + A.length) := by
  induction A generalizing pos with
  | nil => simp
  | cons line A2 ih =>
    have hline : isTerminator lvl line = false := hA line (List.mem_cons_self _ _)
    have h1 : findSectionEnd lvl ((line :: A2) ++ B) pos
        = findSectionEnd lvl (A2 ++ B) (pos + 1) := by
      simp [findSectionEnd, hline]
    rw [h1, ih (pos + 1) (fun l hl => hA l (List.mem_cons_of_mem _ hl))]
    congr 1
    simp only [List.length_cons]
    omega

theorem findSectionEnd_cons_term (lvl : Nat) (line : List Char)
    (rest : List (List Char)) (pos : Nat) (h : isTerminator lvl line = true) :
    findSectionEnd lvl (line :: rest) pos = pos := by
  simp [findSectionEnd, h]

theorem findSectionEnd_term_at (lvl : Nat) (L : List (List Char)) (pos : Nat)
    (h : findSectionEnd lvl L pos < pos + L.length) :
    ∃ l, L[findSectionEnd lvl L pos - pos]? = some l ∧ isTerminator lvl l = true := by
  induction L generalizing pos with
  | nil => simp [findSectionEnd] at h
  | cons line rest ih =>
    by_cases ht : isTerminator lvl line = true
    · rw [findSectionEnd_cons_term lvl line rest pos ht]
      exact ⟨line, by simp, ht⟩
    · have heq : findSectionEnd lvl (line :: rest) pos = findSectionEnd lvl rest (pos + 1) := by
        simp [findSectionEnd, ht]
      rw [heq] at h ⊢
      have h2 : findSectionEnd lvl rest (pos + 1) < (pos + 1) + rest.length := by
        simp only [List.length_cons] at h
        omega
      obtain ⟨l, hg, hterm⟩ := ih (pos + 1) h2
      refine ⟨l, ?_, hterm⟩
      obtain ⟨hb1, _⟩ := findSectionEnd_bounds lvl rest (pos + 1)
      have : findSectionEnd lvl rest (pos + 1) - pos
          = (findSectionEnd lvl rest (pos + 1) - (pos + 1)) + 1 := by omega
      rw [this, List.getElem?_cons_succ]
      exact hg

theorem drop_cons_of_getElem (l : List (List Char)) (i : Nat) (x : List Char)
    (h : l[i]? = some x) : l.drop i = x :: l.drop (i + 1) := by
  induction l generalizing i with
  | nil => simp at h
  | cons a rest ih =>
    cases i with
    | zero =>
      simp only [List.getElem?_cons_zero, Option.some_inj] at h
      subst h
      simp
    | succ n =>
      simp only [List.getElem?_cons_succ] at h
      simp only [List.drop_succ_cons]
      exact ih n h

/-! ### Lemmas about the fuzzy matcher -/

theorem slideLoop_inv (content ns : List Char) (t : ℚ) (wsize : Nat) (k i : Nat)
    (best : Option MatchCandidate)
    (hbest : ∀ b, best = some b → t ≤ b.similarity) (c : MatchCandidate)
    (h : slideLoop content ns t wsize k i best = some c) : t ≤ c.similarity := by
  induction k generalizing i best with
  | zero => exact hbest c h
  | succ k ih =>
    simp only [slideLoop] at h
    split at h
    · rename_i himp
      rw [Bool.and_eq_true, decide_eq_true_eq] at himp
      split at h
      · simp only [Option.some_inj] at h
        subst h
        exact himp.1
      · refine ih (i + 1) _ ?_ h
        intro b hb
        simp only [Option.some_inj] at hb
        subst hb
        exact himp.1
    · exact ih (i + 1) best hbest h

theorem tryWindows_inv (content ns : List Char) (t : ℚ) (ws : List Nat)
    (best : Option MatchCandidate)
    (hbest : ∀ b, best = some b → t ≤ b.similarity) (c : MatchCandidate)
    (h : tryWindows content ns t ws best = some c) : t ≤ c.similarity := by
  induction ws generalizing best with
  | nil => exact hbest c h
  | cons w ws2 ih =>
    simp only [tryWindows] at h
    split at h
    · exact ih best hbest h
    · have hbest2 : ∀ b,
          slideLoop content ns t w (content.length - w + 1) 0 best = some b →
          t ≤ b.similarity :=
        fun b hb => slideLoop_inv content ns t w _ 0 best hbest b hb
      split at h
      · exact hbest2 c h
      · exact ih _ hbest2 h

theorem firstPrefixIdx_nilPat (l : List Char) : firstPrefixIdx [] l = some 0 := by
  cases l <;> simp [firstPrefixIdx, List.isPrefixOf]

/-! ### Claim theorems -/

/-- C10: for every content string and every threshold, `findBestMatch`
with an empty target string returns the empty exact match with
`start = 0`, `end = 0` and similarity 1 (JS `indexOf("")` is 0), rather
than returning `none` or failing. -/
theorem C10_findBestMatch_emptyTarget (content : List Char) (t : ℚ) :
    findBestMatch content [] t = some (MatchCandidate.mk [] 0 0 1) := by
  unfold findBestMatch
  rw [firstPrefixIdx_nilPat content]
  rfl

/-- C3 counterexample: the claim quantifies over every threshold value,
but with threshold 2 and target "a" inside content "ab" the
exact-substring fast path returns a candidate of similarity 1 < 2, so
`findBestMatch` does return a candidate whose similarity is below the
threshold. -/
theorem C3_counterexample :
    findBestMatch (("ab").toList) (("a").toList) 2
        = some (MatchCandidate.mk (("a").toList) 0 1 1)
      ∧ ¬ ((2 : ℚ) ≤ (MatchCandidate.mk (("a").toList) 0 1 1).similarity) := by
  refine ⟨by rfl, ?_⟩
  norm_num

/-- C3 (amended): for every content string, target string and threshold
`t ≤ 1`, whenever `findBestMatch` returns a candidate its similarity is
at least `t` — the sliding-window search only records candidates whose
similarity reaches the threshold, and the exact-substring fast path
returns similarity 1. -/
theorem C3_findBestMatch_threshold (content target : List Char) (t : ℚ)
    (c : MatchCandidate) (ht : t ≤ 1)
    (h : findBestMatch content target t = some c) : t ≤ c.similarity := by
  unfold findBestMatch at h
  rcases hex : firstPrefixIdx target content with _ | i <;> rw [hex] at h
  · exact tryWindows_inv content _ t _ none (fun b hb => by cases hb) c h
  · simp only [Option.some_inj] at h
    subst h
    exact ht

/-- C3 witness: threshold 1/2 on content "ab", target "a". -/
theorem C3_witness :
    ((1 : ℚ) / 2 ≤ 1)
      ∧ (1 : ℚ) / 2 ≤ (MatchCandidate.mk (("a").toList) 0 1 1).similarity :=
  ⟨by norm_num,
    C3_findBestMatch_threshold (("ab").toList) (("a").toList) ((1 : ℚ) / 2)
      (MatchCandidate.mk (("a").toList) 0 1 1) (by norm_num) (by rfl)⟩

/-- C1 counterexample: after loading an absent rule file (and likewise
an empty one) the engine is disabled and `isExcluded(".mcpignore")`
returns `false`, even for a pattern matcher that matches everything: the
disabled check precedes the `.mcpignore` guard. -/
theorem C1_counterexample :
    isExcluded (fun _ _ => true) (loadIgnore none) ((".mcpignore").toList) = false
      ∧ isExcluded (fun _ _ => true) (loadIgnore (some []))
          ((".mcpignore").toList) = false := by
  exact ⟨rfl, rfl⟩

/-- C1 (amended): in every state in which the engine is enabled,
`isExcluded(".mcpignore")` returns true regardless of the loaded
patterns and of the pattern matcher; when the engine is disabled (empty
or absent rule file) `isExcluded` returns false for every path. -/
theorem C1_isExcluded_mcpignore (m : List Char → List Char → Bool)
    (st : IgnoreState) (h : st.enabled = true) :
    isExcluded m st ((".mcpignore").toList) = true := by
  unfold isExcluded
  rw [h]
  simp

/-- C1 witness: a rule file containing one pattern enables the engine. -/
theorem C1_witness :
    (loadIgnore (some (("private/").toList))).enabled = true
      ∧ isExcluded (fun _ _ => false) (loadIgnore (some (("private/").toList)))
          ((".mcpignore").toList) = true :=
  ⟨by rfl,
    C1_isExcluded_mcpignore (fun _ _ => false)
      (loadIgnore (some (("private/").toList))) (by rfl)⟩

/-- C9 counterexample: a request carrying the empty-string session
identifier (which is not in the session table) is not rejected — JS
truthiness routes it to the new-session branch, which creates a session
and mutates the table. -/
theorem C9_counterexample :
    handleMcpRequest [] (some []) (("u1").toList)
        = (RouterOutcome.created (("u1").toList), [("u1").toList])
      ∧ RouterOutcome.created (("u1").toList) ≠ RouterOutcome.rejected := by
  exact ⟨rfl, by simp⟩

/-- C9 (amended): a request carrying a non-empty session identifier that
is not in the active-session table is rejected with the distinguishable
reinitialize error and the table is unchanged; a request carrying no
session identifier creates a fresh session registered under the freshly
generated identifier. -/
theorem C9_router (transports : List (List Char)) (sid newId : List Char)
    (hne : sid ≠ []) (hmem : sid ∉ transports) :
    handleMcpRequest transports (some sid) newId
        = (RouterOutcome.rejected, transports)
      ∧ ∀ fresh, handleMcpRequest transports none fresh
        = (RouterOutcome.created fresh, fresh :: transports) := by
  constructor
  · simp [handleMcpRequest, hne, hmem]
  · intro fresh
    rfl

/-- C9 witness: the unknown identifier "b" against a table containing
only "a". -/
theorem C9_witness :
    handleMcpRequest [("a").toList] (some (("b").toList)) (("u2").toList)
        = (RouterOutcome.rejected, [("a").toList])
      ∧ ∀ fresh, handleMcpRequest [("a").toList] none fresh
        = (RouterOutcome.created fresh, fresh :: [("a").toList]) :=
  C9_router [("a").toList] (("b").toList) (("u2").toList) (by simp)
    (by simp)

theorem editLine_eq_some (content nc : List Char) (mode : LineMode) (n : Nat)
    (h1 : 1 ≤ n) (h2 : n ≤ (splitNl content).length + 1) :
    editLine content n nc mode = some (joinNl (
      match mode with
      | .before =>
        (splitNl content).take (n - 1) ++ splitNl nc ++ (splitNl content).drop (n - 1)
      | .after =>
        (splitNl content).take ((n - 1) + 1) ++ splitNl nc
          ++ (splitNl content).drop ((n - 1) + 1)
      | .replace =>
        (splitNl content).take (n - 1) ++ splitNl nc
          ++ (splitNl content).drop ((n - 1) + 1))) := by
  unfold editLine
  rw [if_neg (by omega)]

/-- C5: the line-indexed edit accepts exactly the line numbers
`1 ≤ n ≤ lineCount + 1`: at `lineCount + 1` the modes `before` and
`replace` both append the new content at the end of the document, while
line numbers 0 and `lineCount + 2` are rejected (`none`, no write
performed); in general the edit is rejected iff the line number is out
of that range. -/
theorem C5_editLine_boundary (content nc : List Char) (mode : LineMode) :
    (editLine content ((splitNl content).length + 1) nc LineMode.before
        = some (joinNl (splitNl content ++ splitNl nc)))
      ∧ (editLine content ((splitNl content).length + 1) nc LineMode.replace
        = some (joinNl (splitNl content ++ splitNl nc)))
      ∧ (editLine content 0 nc mode = none)
      ∧ (editLine content ((splitNl content).length + 2) nc mode = none)
      ∧ (∀ n : Nat, editLine content n nc mode = none
          ↔ (n < 1 ∨ (splitNl content).length + 1 < n)) := by
  have htake : (splitNl content).take ((splitNl content).length + 1 - 1)
      = splitNl content := by
    simp
  have hdrop1 : (splitNl content).drop ((splitNl content).length + 1 - 1) = [] := by
    apply List.drop_eq_nil_of_le
    omega
  have hdrop2 : (splitNl content).drop (((splitNl content).length + 1 - 1) + 1) = [] := by
    apply List.drop_eq_nil_of_le
    omega
  refine ⟨?_, ?_, ?_, ?_, ?_⟩
  · rw [editLine_eq_some content nc LineMode.before _ (by omega) (by omega)]
    rw [show (match LineMode.before with
      | LineMode.before =>
        (splitNl content).take ((splitNl content).length + 1 - 1) ++ splitNl nc
          ++ (splitNl content).drop ((splitNl content).length + 1 - 1)
      | LineMode.after =>
        (splitNl content).take (((splitNl content).length + 1 - 1) + 1) ++ splitNl nc
          ++ (splitNl content).drop (((splitNl content).length + 1 - 1) + 1)
      | LineMode.replace =>
        (splitNl content).take ((splitNl content).length + 1 - 1) ++ splitNl nc
          ++ (splitNl content).drop (((splitNl content).length + 1 - 1) + 1))
      = (splitNl content).take ((splitNl content).length + 1 - 1) ++ splitNl nc
          ++ (splitNl content).drop ((splitNl content).length + 1 - 1) from rfl]
    rw [htake, hdrop1, List.append_nil]
  · rw [editLine_eq_some content nc LineMode.replace _ (by omega) (by omega)]
    rw [show (match LineMode.replace with
      | LineMode.before =>
        (splitNl content).take ((splitNl content).length + 1 - 1) ++ splitNl nc
          ++ (splitNl content).drop ((splitNl content).length + 1 - 1)
      | LineMode.after =>
        (splitNl content).take (((splitNl content).length + 1 - 1) + 1) ++ splitNl nc
          ++ (splitNl content).drop (((splitNl content).length + 1 - 1) + 1)
      | LineMode.replace =>
        (splitNl content).take ((splitNl content).length + 1 - 1) ++ splitNl nc
          ++ (splitNl content).drop (((splitNl content).length + 1 - 1) + 1))
      = (splitNl content).take ((splitNl content).length + 1 - 1) ++ splitNl nc
          ++ (splitNl content).drop (((splitNl content).length + 1 - 1) + 1) from rfl]
    rw [htake, hdrop2, List.append_nil]
  · unfold editLine
    rw [if_pos (by omega)]
  · unfold editLine
    rw [if_pos (by omega)]
  · intro n
    by_cases hr : n < 1 ∨ (splitNl content).length + 1 < n
    · constructor
      · intro _
        exact hr
      · intro _
        unfold editLine
        rw [if_pos hr]
    · constructor
      · intro hnone
        rw [editLine_eq_some content nc mode n (by omega) (by omega)] at hnone
        simp at hnone
      · intro hcon
        exact absurd hcon hr

/-- C7: patching frontmatter field `priority` with operation `replace`
and content `high` on a document with no frontmatter block prepends a
new frontmatter block containing only `priority: high`, leaving the
original body unchanged beneath it. -/
theorem C7_patchFrontmatter_creates (content : List Char)
    (h : ("---").toList.isPrefixOf content = false) :
    patchFrontmatter content (("priority").toList) PatchOp.replace (("high").toList)
      = Except.ok (("---\npriority: high\n---\n\n").toList ++ content) := by
  unfold patchFrontmatter
  rw [h]
  rfl

/-- C7 witness: the frontmatter-less document "hello". -/
theorem C7_witness :
    ("---").toList.isPrefixOf (("hello").toList) = false
      ∧ patchFrontmatter (("hello").toList) (("priority").toList) PatchOp.replace
          (("high").toList)
        = Except.ok (("---\npriority: high\n---\n\n").toList ++ ("hello").toList) :=
  ⟨by rfl, C7_patchFrontmatter_creates (("hello").toList) (by rfl)⟩

/-- C4: when the heading path does not resolve in the document,
`vault_patch` with target type `heading` fails with the
target-not-found error (`Heading not found: <path>`) and the document
content is byte-identical to before the call — the handler catches the
throw before `vault.modify` is reached. -/
theorem C4_vaultPatch_heading_notfound (content target pc : List Char)
    (op : PatchOp)
    (h : findHeadingPos (splitSegs target) 0 (splitNl content) 0 = none) :
    vaultPatch content TargetKind.heading target op pc
        = Except.error (("Heading not found: ").toList ++ target)
      ∧ vaultPatchApply content TargetKind.heading target op pc = content := by
  have h1 : vaultPatch content TargetKind.heading target op pc
      = Except.error (("Heading not found: ").toList ++ target) := by
    simp only [vaultPatch, patchHeading, h]
  refine ⟨h1, ?_⟩
  unfold vaultPatchApply
  rw [h1]

/-- C4 witness: the absent heading path "Tasks::Open" in the document
"# Notes\nhello". -/
theorem C4_witness :
    findHeadingPos (splitSegs (("Tasks::Open").toList)) 0
        (splitNl (("# Notes\nhello").toList)) 0 = none
      ∧ vaultPatch (("# Notes\nhello").toList) TargetKind.heading
          (("Tasks::Open").toList) PatchOp.append (("x").toList)
        = Except.error (("Heading not found: ").toList ++ ("Tasks::Open").toList)
      ∧ vaultPatchApply (("# Notes\nhello").toList) TargetKind.heading
          (("Tasks::Open").toList) PatchOp.append (("x").toList)
        = ("# Notes\nhello").toList := by
  refine ⟨by rfl, ?_⟩
  exact C4_vaultPatch_heading_notfound (("# Notes\nhello").toList)
    (("Tasks::Open").toList) (("x").toList) PatchOp.append (by rfl)

/-- C2 counterexample: in the document "# A\n# B\n## C" the heading path
"A::C" resolves (to line 2, level 2), although the subtree of the
matched section "A" (line 0, level 1) ends at line 1 — the heading
"# B" — so the matched subsection lies outside the section's subtree:
the scan only requires a strictly larger level later in the document,
not nesting. -/
theorem C2_counterexample :
    findHeadingPos (splitSegs (("A::C").toList)) 0
        (splitNl (("# A\n# B\n## C").toList)) 0 = some (2, 2)
      ∧ findHeadingPos (splitSegs (("A").toList)) 0
          (splitNl (("# A\n# B\n## C").toList)) 0 = some (0, 1)
      ∧ findSectionEnd 1 ((splitNl (("# A\n# B\n## C").toList)).drop 1) 1 = 1
      ∧ ¬ (2 < findSectionEnd 1 ((splitNl (("# A\n# B\n## C").toList)).drop 1) 1) := by
  refine ⟨by rfl, by rfl, by rfl, by decide⟩

/-- C2 (amended): for a two-segment heading path, resolution succeeds
only when the matched "Subsection" heading occurs strictly after the
matched "Section" heading with a heading level strictly greater than
Section's (each matched segment's level strictly increasing past the
previously matched level); the subsection need not lie inside the
section's subtree. -/
theorem C2_headingPath_resolution (path s1 s2 : List Char)
    (lines : List (List Char)) (p lvl : Nat)
    (hsegs : splitSegs path = [s1, s2])
    (h : findHeadingPos (splitSegs path) 0 lines 0 = some (p, lvl)) :
    ∃ i l1 ln1 ln2, i < p ∧
      lines[i]? = some ln1 ∧ parseHeading ln1 = some (l1, s1) ∧ l1 < lvl ∧
      lines[p]? = some ln2 ∧ parseHeading ln2 = some (lvl, s2) := by
  rw [hsegs] at h
  obtain ⟨i, l1, ln1, ln2, _, hi2, hg1, hp1, _, hl1, hg2, hp2⟩ :=
    findHeadingPos_pair s1 s2 0 lines 0 p lvl h
  exact ⟨i, l1, ln1, ln2, hi2, by simpa using hg1, hp1, hl1,
    by simpa using hg2, hp2⟩

/-- C2 witness: the path "A::C" resolved in "# A\n## C". -/
theorem C2_witness :
    splitSegs (("A::C").toList) = [("A").toList, ("C").toList]
      ∧ ∃ i l1 ln1 ln2, i < 1
        ∧ (splitNl (("# A\n## C").toList))[i]? = some ln1
        ∧ parseHeading ln1 = some (l1, ("A").toList) ∧ l1 < 2
        ∧ (splitNl (("# A\n## C").toList))[1]? = some ln2
        ∧ parseHeading ln2 = some (2, ("C").toList) :=
  ⟨by rfl,
    C2_headingPath_resolution (("A::C").toList) (("A").toList) (("C").toList)
      (splitNl (("# A\n## C").toList)) 1 2 (by rfl) (by rfl)⟩

/-! ### Lemmas for the frontmatter patch -/

theorem findLineIdx_append_first (p : List Char → Bool) (A : List (List Char))
    (hA : ∀ l ∈ A, p l = false) (x : List Char) (hx : p x = true)
    (B : List (List Char)) :
    findLineIdx p (A ++ x :: B) = some A.length := by
  induction A with
  | nil => simp [findLineIdx, hx]
  | cons a A2 ih =>
    have ha : p a = false := hA a (List.mem_cons_self _ _)
    simp [findLineIdx, ha, ih (fun l hl => hA l (List.mem_cons_of_mem _ hl))]

theorem getElem?_append_mid (A : List (List Char)) (x : List Char)
    (B : List (List Char)) : (A ++ x :: B)[A.length]? = some x := by
  induction A with
  | nil => simp
  | cons a A2 ih => simpa using ih

theorem set_append_mid (A : List (List Char)) (x y : List Char)
    (B : List (List Char)) : (A ++ x :: B).set A.length y = A ++ y :: B := by
  induction A with
  | nil => rfl
  | cons a A2 ih => simp [ih]

/-- C8: on a well-formed document `---\n<fm>---<rest>` (the first
occurrence of `---` at index ≥ 3 closes the frontmatter), replacing the
frontmatter field `status` with content `done` rewrites exactly the
first frontmatter line starting with `status:` — in the claimed
scenario the line `status: active` — to `status: done`, and leaves
every other frontmatter line, both delimiters and the body after the
frontmatter byte-identical. -/
theorem C8_patchFrontmatter_replace (fm rest ln : List Char)
    (A B : List (List Char))
    (hidx : idxOfFrom (("---\n").toList ++ fm ++ ("---").toList ++ rest)
        (("---").toList) 3 = some (4 + fm.length))
    (hsplit : splitNl fm = A ++ ln :: B)
    (hA : ∀ l ∈ A, fieldKeyMatch (("status").toList) l = false)
    (hln : fieldKeyMatch (("status").toList) ln = true) :
    patchFrontmatter (("---\n").toList ++ fm ++ ("---").toList ++ rest)
        (("status").toList) PatchOp.replace (("done").toList)
      = Except.ok (("---\n").toList
          ++ joinNl (A ++ (("status: done").toList) :: B)
          ++ ("---").toList ++ rest) := by
  have hpre : (("---").toList).isPrefixOf
      (("---\n").toList ++ fm ++ ("---").toList ++ rest) = true := by
    rfl
  have hfm : (((("---\n").toList ++ fm ++ ("---").toList ++ rest).drop 4).take
      (4 + fm.length - 4)) = fm := by
    have h1 : ("---\n").toList ++ fm ++ ("---").toList ++ rest
        = ("---\n").toList ++ (fm ++ (("---").toList ++ rest)) := by
      simp [List.append_assoc]
    rw [h1]
    have h2 : (("---\n").toList ++ (fm ++ (("---").toList ++ rest))).drop 4
        = fm ++ (("---").toList ++ rest) := by
      rw [show (4 : Nat) = (("---\n").toList).length from rfl, List.drop_left]
    rw [h2, show 4 + fm.length - 4 = fm.length from by omega, List.take_left]
  have hrest : (("---\n").toList ++ fm ++ ("---").toList ++ rest).drop
      (4 + fm.length + 3) = rest := by
    have h1 : ("---\n").toList ++ fm ++ ("---").toList ++ rest
        = ((("---\n").toList ++ fm) ++ ("---").toList) ++ rest := by
      simp [List.append_assoc]
    rw [h1]
    have hlen : ((("---\n").toList ++ fm) ++ ("---").toList).length
        = 4 + fm.length + 3 := by
      simp only [List.length_append]
      rfl
    rw [show 4 + fm.length + 3 = ((("---\n").toList ++ fm) ++ ("---").toList).length
      from hlen.symm, List.drop_left]
  simp only [patchFrontmatter, hpre, if_true, hidx, hfm, hrest, hsplit]
  rw [findLineIdx_append_first (fieldKeyMatch (("status").toList)) A hA ln hln B]
  simp only [getElem?_append_mid, Option.getD_some]
  rw [set_append_mid A ln
    ((("status").toList) ++ ((": ").toList) ++ (("done").toList)) B]
  rfl

/-- C8 witness: the document
"---\ntitle: x\nstatus: active\n---\nbody". -/
theorem C8_witness :
    splitNl (("title: x\nstatus: active\n").toList)
        = [("title: x").toList] ++ (("status: active").toList) :: [[]]
      ∧ patchFrontmatter
          (("---\n").toList ++ ("title: x\nstatus: active\n").toList
            ++ ("---").toList ++ ("\nbody").toList)
          (("status").toList) PatchOp.replace (("done").toList)
        = Except.ok (("---\n").toList
            ++ joinNl ([("title: x").toList] ++ (("status: done").toList) :: [[]])
            ++ ("---").toList ++ ("\nbody").toList) :=
  ⟨by rfl,
    C8_patchFrontmatter_replace (("title: x\nstatus: active\n").toList)
      (("\nbody").toList) (("status: active").toList)
      [("title: x").toList] [[]] (by rfl) (by rfl) (by decide) (by rfl)⟩

/-- C6 counterexample: replacing the body under "A" in "# A\nx" with the
content "# B" (a heading line of level ≤ the matched level) yields
"# A\n# B"; re-resolving "A" there finds an empty body, not "# B" — the
round-trip fails when the new content itself starts a terminating
heading. -/
theorem C6_counterexample :
    patchHeading (("# A\nx").toList) (("A").toList) PatchOp.replace
        (("# B").toList) = Except.ok (("# A\n# B").toList)
      ∧ headingBody (("# A\n# B").toList) (("A").toList) = some []
      ∧ (([] : List Char) ≠ ("# B").toList) := by
  refine ⟨by rfl, by rfl, by decide⟩

/-- C6 (amended): for every document in which the heading path resolves
(at line `ts` with heading level `lvl`) and every content string `C`
none of whose lines matches `/^(#{1,6})\s+/` at a level ≤ `lvl`,
applying operation `replace` on that heading target with `C` and then
re-resolving the same heading target in the result yields a body whose
newline-join is exactly `C`, independent of the previous body. -/
theorem C6_patchHeading_replace_roundtrip (content path C newDoc : List Char)
    (ts lvl : Nat)
    (hres : findHeadingPos (splitSegs path) 0 (splitNl content) 0 = some (ts, lvl))
    (hC : ∀ l ∈ splitNl C, isTerminator lvl l = false)
    (hpatch : patchHeading content path PatchOp.replace C = Except.ok newDoc) :
    headingBody newDoc path = some C := by
  have hts : ts < (splitNl content).length := by
    have := findHeadingPos_bounds (splitSegs path) 0 (splitNl content) 0 ts lvl hres
    omega
  have htake_len : ((splitNl content).take (ts + 1)).length = ts + 1 := by
    rw [List.length_take]
    omega
  have hteb := findSectionEnd_bounds lvl ((splitNl content).drop (ts + 1)) (ts + 1)
  have hdroplen : ((splitNl content).drop (ts + 1)).length
      = (splitNl content).length - (ts + 1) := List.length_drop _ _
  -- the patched document
  simp only [patchHeading, hres, Except.ok.injEq] at hpatch
  set te := findSectionEnd lvl ((splitNl content).drop (ts + 1)) (ts + 1) with hte
  have hteub : te ≤ (splitNl content).length := by omega
  -- re-splitting the patched document
  have hnoNl_take : ∀ x ∈ (splitNl content).take (ts + 1), '\n' ∉ x :=
    fun x hx => not_nl_mem_of_mem_splitNl content x (List.take_subset _ _ hx)
  have hnoNl_drop : ∀ x ∈ (splitNl content).drop te, '\n' ∉ x :=
    fun x hx => not_nl_mem_of_mem_splitNl content x (List.drop_subset _ _ hx)
  have hsplitNew : splitNl newDoc
      = (splitNl content).take (ts + 1)
        ++ (splitNl C ++ (splitNl content).drop te) := by
    rw [← hpatch, splitNl_joinNl_flat _ (by simp)]
    rw [List.append_assoc, List.flatMap_append,
      flatMap_splitNl_eq_self _ hnoNl_take]
    congr 1
    rw [List.flatMap_append, flatMap_splitNl_eq_self _ hnoNl_drop]
    simp
  -- resolution in the patched document matches at the same position
  have hres2 : findHeadingPos (splitSegs path) 0
      ((splitNl content).take (ts + 1)
        ++ (splitNl C ++ (splitNl content).drop te)) 0 = some (ts, lvl) := by
    refine findHeadingPos_take_stable (splitSegs path) 0
      ((splitNl content).take (ts + 1)) ((splitNl content).drop (ts + 1)) _
      0 ts lvl ?_ ?_
    · rw [List.take_append_drop]
      exact hres
    · rw [htake_len]
      omega
  have hdrop_new : ((splitNl content).take (ts + 1)
        ++ (splitNl C ++ (splitNl content).drop te)).drop (ts + 1)
      = splitNl C ++ (splitNl content).drop te :=
    List.drop_left' htake_len
  -- the section end in the patched document
  have hte2 : findSectionEnd lvl (splitNl C ++ (splitNl content).drop te) (ts + 1)
      = (ts + 1) + (splitNl C).length := by
    rw [findSectionEnd_skip lvl (splitNl C) _ (ts + 1) hC]
    by_cases hcase : te < (splitNl content).length
    · have h2 : te < (ts + 1) + ((splitNl content).drop (ts + 1)).length := by
        omega
      obtain ⟨l, hg, hterm⟩ :=
        findSectionEnd_term_at lvl ((splitNl content).drop (ts + 1)) (ts + 1)
          (by rw [← hte]; exact h2)
      rw [← hte] at hg
      have hdd : (splitNl content).drop te
          = l :: ((splitNl content).drop (ts + 1)).drop ((te - (ts + 1)) + 1) := by
        have hsum : (splitNl content).drop te
            = ((splitNl content).drop (ts + 1)).drop (te - (ts + 1)) := by
          rw [List.drop_drop]
          congr 1
          omega
        rw [hsum, drop_cons_of_getElem _ _ _ hg]
      rw [hdd, findSectionEnd_cons_term lvl l _ _ hterm]
    · have hnil : (splitNl content).drop te = [] :=
        List.drop_eq_nil_of_le (by omega)
      rw [hnil]
      simp [findSectionEnd]
  -- read the body back
  simp only [headingBody, hsplitNew, hres2, hdrop_new, hte2, Option.some_inj]
  rw [show (ts + 1) + (splitNl C).length - (ts + 1) = (splitNl C).length from by omega,
    List.take_left, joinNl_splitNl]

/-- C6 witness: replacing the body under "S" in "# S\nold" with "new"
and reading it back. -/
theorem C6_witness :
    (∀ l ∈ splitNl (("new").toList), isTerminator 1 l = false)
      ∧ headingBody (("# S\nnew").toList) (("S").toList)
        = some (("new").toList) :=
  ⟨by decide,
    C6_patchHeading_replace_roundtrip (("# S\nold").toList) (("S").toList)
      (("new").toList) (("# S\nnew").toList) 0 1 (by rfl) (by decide) (by rfl)⟩

end ObsidianMcp
